import Mathlib

/-!
Shallow embedding of the trace aggregation engine of the ts-tracelytics
repository (`analyzeTrace`, `getFilePath`, `getFileExtension` from
`analyzer.ts`), together with theorems settling specification claims
about it.

Modelling conventions:
* JavaScript `Record` objects are modelled as association lists in
  property-creation order (`alookup` / `aset` / `aerase`): property
  assignment replaces an existing entry in place and appends a new
  entry at the end; `delete` removes the entry. Own-property
  enumeration (`Object.values`) follows the ECMAScript order modelled
  by `jsEnumOrder`: array-index-like keys first in ascending numeric
  order, then the remaining string keys in creation order.
* JavaScript numbers are modelled as `Int` for timestamps, durations
  and accumulated times, and as `ℚ` for the derived averages.
* `Array.prototype.sort` (guaranteed stable by the language) is
  modelled by `List.insertionSort`, which is a stable sort; the
  default comparator used on the timestamp keys compares strings by
  code units, modelled by `charListLe` (identical to the JavaScript
  order on the decimal digit strings that occur as keys).
* A `Set` of strings is modelled as a duplicate-free list in insertion
  order (`addUnique`), whose length is the set's size.
-/

namespace Tracelytics

/-- A trace event record: `name`, `cat`, `ph`, `ts` are always present,
`dur` is optional, and the `args` bag contributes the optional `path`
and `fileName` fields read by `getFilePath`. -/
structure TraceEvent where
  name : String
  cat : String
  ph : String
  ts : Int
  dur : Option Int
  argsPath : Option String
  argsFileName : Option String
deriving DecidableEq

/-- JavaScript `a || b` on `string | null` values: `null` and the empty
string (falsy) fall through to the right operand. -/
def jsOrString : Option String → Option String → Option String
  | some s, b => if s = "" then b else some s
  | none, b => b

/-- JavaScript `a || d` where `a : string | null` and `d` is a string. -/
def jsOrDefault : Option String → String → String
  | some s, d => if s = "" then d else s
  | none, d => d

/-- Source `getFilePath`: `event.args.path || event.args.fileName || null`. -/
def getFilePath (event : TraceEvent) : Option String :=
  jsOrString event.argsPath (jsOrString event.argsFileName none)

/-- Characters after the last `'.'` of the list, or `none` when there
is no dot. -/
def lastDotSuffix : List Char → Option (List Char)
  | [] => none
  | c :: cs =>
    match lastDotSuffix cs with
    | some e => some e
    | none => if c = '.' then some cs else none

/-- Source `getFileExtension`: the result of matching the path against a
final dot followed by one or more non-dot characters (the nonempty part
after the last dot), else `"unknown"`. -/
def getFileExtension (filePath : String) : String :=
  match lastDotSuffix filePath.data with
  | some (c :: cs) => String.mk (c :: cs)
  | _ => "unknown"

/-- Property read on a JavaScript object modelled as an association list. -/
def alookup {α : Type} : List (String × α) → String → Option α
  | [], _ => none
  | p :: m, k => if p.1 = k then some p.2 else alookup m k

/-- Property assignment on a JavaScript object: replace in place when the
key is present, append at the end otherwise. -/
def aset {α : Type} : List (String × α) → String → α → List (String × α)
  | [], k, v => [(k, v)]
  | p :: m, k, v => if p.1 = k then (k, v) :: m else p :: aset m k v

/-- Property `delete` on a JavaScript object. -/
def aerase {α : Type} : List (String × α) → String → List (String × α)
  | [], _ => []
  | p :: m, k => if p.1 = k then m else p :: aerase m k

/-- The `{totalTime, count, averageTime}` tally shape used for
`operationTimes` and `categoryTimes` entries. -/
structure Operation where
  totalTime : Int
  count : Nat
  averageTime : ℚ
deriving DecidableEq

/-- The `FileStats` record: path, accumulated total time, and the
per-operation time breakdown. -/
structure FileStats where
  path : String
  totalTime : Int
  operations : List (String × Int)
deriving DecidableEq

/-- The `moduleResolution` component of `Statistics`. -/
structure ModuleResolutionStats where
  totalTime : Int
  totalCount : Nat
  averageTime : ℚ
deriving DecidableEq

/-- The finalized `Statistics` value returned by `analyzeTrace`. -/
structure Statistics where
  totalTime : Int
  totalFiles : Nat
  operationTimes : List (String × Operation)
  categoryTimes : List (String × Operation)
  slowestFiles : List FileStats
  filesByType : List (String × Nat)
  moduleResolution : ModuleResolutionStats
deriving DecidableEq

/-- The mutable locals of `analyzeTrace` during the event loop: the
partially built statistics fields, the pending begin-event registry,
the set of unique files and the per-file timings. -/
structure AnalyzeState where
  operationTimes : List (String × Operation)
  categoryTimes : List (String × Operation)
  moduleResolution : ModuleResolutionStats
  beginEvents : List (String × List (String × TraceEvent))
  uniqueFiles : List String
  fileTimings : List (String × FileStats)
  filesByType : List (String × Nat)
deriving DecidableEq

/-- The state at the start of `analyzeTrace`: every mapping empty,
`moduleResolution` set to all zeroes. -/
def initState : AnalyzeState :=
  { operationTimes := []
    categoryTimes := []
    moduleResolution := { totalTime := 0, totalCount := 0, averageTime := 0 }
    beginEvents := []
    uniqueFiles := []
    fileTimings := []
    filesByType := [] }

/-- The repeated tally-update pattern of the source: create the entry
with zeroes when absent, then add the duration and bump the count. -/
def bumpTally (m : List (String × Operation)) (k : String) (d : Int) :
    List (String × Operation) :=
  let t := (alookup m k).getD { totalTime := 0, count := 0, averageTime := 0 }
  aset m k { t with totalTime := t.totalTime + d, count := t.count + 1 }

/-- The file-timing update of the source: create the `FileStats` entry
when absent, add the duration to the file total and to the file's entry
for this operation. -/
def bumpFile (m : List (String × FileStats)) (p op : String) (d : Int) :
    List (String × FileStats) :=
  let fs := (alookup m p).getD { path := p, totalTime := 0, operations := [] }
  let opTime := (alookup fs.operations op).getD 0
  aset m p
    { fs with totalTime := fs.totalTime + d
              operations := aset fs.operations op (opTime + d) }

/-- The file-type update of the source: create the extension bucket at 0
when absent, then increment it. -/
def bumpType (m : List (String × Nat)) (ext : String) : List (String × Nat) :=
  aset m ext ((alookup m ext).getD 0 + 1)

/-- `Set.add` on the unique-file set, modelled as an insertion-ordered
duplicate-free list. -/
def addUnique (l : List String) (p : String) : List String :=
  if p ∈ l then l else l ++ [p]

/-- The begin/end matching key of the source:
`` `${event.name}:${filePath || "unknown"}` ``. -/
def matchKey (event : TraceEvent) : String :=
  event.name ++ ":" ++ jsOrDefault (getFilePath event) "unknown"

/-- Lexicographic comparison of character lists by code point; on the
decimal digit strings used as timestamp keys this coincides with the
JavaScript default string comparison (by UTF-16 code units). -/
def charListLe : List Char → List Char → Bool
  | [], _ => true
  | _ :: _, [] => false
  | a :: as, b :: bs =>
    if a.toNat < b.toNat then true
    else if b.toNat < a.toNat then false
    else charListLe as bs

/-- String comparison used by the default `Array.prototype.sort`. -/
def strLe (a b : String) : Bool := charListLe a.data b.data

/-- `Object.keys(...).sort()`: the timestamp-key list in fully sorted
(string) order. `Object.keys` enumerates own properties in the
ECMAScript order, but the subsequent `.sort()` totally sorts the
pairwise-distinct keys, so the result does not depend on the
enumeration order and is computed directly from the stored entries. -/
def sortStrings (l : List String) : List String :=
  List.insertionSort (fun a b => strLe a b = true) l

/-- Digit test used by the array-index key test. -/
def isDigitChar (c : Char) : Bool := 48 ≤ c.toNat && c.toNat ≤ 57

/-- Numeric value of a decimal digit string. -/
def digitsVal (l : List Char) : Nat :=
  l.foldl (fun acc c => acc * 10 + (c.toNat - 48)) 0

/-- ECMAScript array-index test for a property key: a canonical decimal
numeral (digits only, no leading zero except for "0" itself) whose
numeric value is below 2^32 - 1. -/
def isArrayIndexKey (s : String) : Bool :=
  match s.data with
  | [] => false
  | c :: cs =>
    (c :: cs).all isDigitChar && (c != '0' || cs.isEmpty) &&
      digitsVal (c :: cs) < 4294967295

/-- Numeric value of an array-index key, used to order them. -/
def keyNumVal (s : String) : Nat := digitsVal s.data

/-- ECMAScript own-property enumeration order of a JavaScript object:
array-index-like keys first in ascending numeric order, then the
remaining string keys in property-creation order. -/
def jsEnumOrder {α : Type} (m : List (String × α)) : List (String × α) :=
  List.insertionSort (fun p q => keyNumVal p.1 ≤ keyNumVal q.1)
    (m.filter (fun p => isArrayIndexKey p.1)) ++
  m.filter (fun p => !isArrayIndexKey p.1)

/-- `Object.values` of a JavaScript object: the values in own-property
enumeration order. -/
def jsValues {α : Type} (m : List (String × α)) : List α :=
  (jsEnumOrder m).map (fun p => p.2)

/-- The `ph === "X" && dur !== undefined` branch of the event loop. -/
def processComplete (s : AnalyzeState) (event : TraceEvent) (d : Int) :
    AnalyzeState :=
  let operation := event.name
  let s1 := { s with operationTimes := bumpTally s.operationTimes operation d }
  let s2 := { s1 with categoryTimes := bumpTally s1.categoryTimes event.cat d }
  let s3 :=
    if operation = "resolveModuleNamesWorker" then
      { s2 with moduleResolution :=
        { s2.moduleResolution with
            totalTime := s2.moduleResolution.totalTime + d
            totalCount := s2.moduleResolution.totalCount + 1 } }
    else s2
  match getFilePath event with
  | some filePath =>
    { s3 with
        uniqueFiles := addUnique s3.uniqueFiles filePath
        fileTimings := bumpFile s3.fileTimings filePath operation d
        filesByType := bumpType s3.filesByType (getFileExtension filePath) }
  | none => s3

/-- The `ph === "B"` branch: store the event under its matching key,
keyed inside by `event.ts.toString()` (overwriting any entry already
stored under the same timestamp string). -/
def processBegin (s : AnalyzeState) (event : TraceEvent) : AnalyzeState :=
  let key := matchKey event
  let inner := (alookup s.beginEvents key).getD []
  { s with
      beginEvents := aset s.beginEvents key (aset inner (toString event.ts) event) }

/-- The body of a successful match in the `ph === "E"` branch: update
the tallies with the duration `event.ts - beginEvent.ts` and delete the
matched begin event from the registry. -/
def endMatch (s : AnalyzeState) (event : TraceEvent)
    (inner : List (String × TraceEvent)) (timeKey : String)
    (beginEvent : TraceEvent) : AnalyzeState :=
  let duration := event.ts - beginEvent.ts
  let operation := event.name
  let s1 :=
    { s with operationTimes := bumpTally s.operationTimes operation duration }
  let s2 :=
    { s1 with categoryTimes := bumpTally s1.categoryTimes event.cat duration }
  let s3 :=
    match getFilePath event with
    | some fp =>
      { s2 with
          uniqueFiles := addUnique s2.uniqueFiles fp
          fileTimings := bumpFile s2.fileTimings fp operation duration
          filesByType := bumpType s2.filesByType (getFileExtension fp) }
    | none => s2
  { s3 with
      beginEvents := aset s3.beginEvents (matchKey event) (aerase inner timeKey) }

/-- The `ph === "E"` branch: take the first key of the sorted timestamp
key list, look up the stored begin event and run the match body; when
there is no pending begin event for the key, do nothing. -/
def processEnd (s : AnalyzeState) (event : TraceEvent) : AnalyzeState :=
  match alookup s.beginEvents (matchKey event) with
  | none => s
  | some inner =>
    match sortStrings (inner.map (fun p => p.1)) with
    | [] => s
    | timeKey :: _ =>
      match alookup inner timeKey with
      | none => s
      | some beginEvent => endMatch s event inner timeKey beginEvent

/-- One iteration of the event loop of `analyzeTrace`. -/
def processEvent (s : AnalyzeState) (event : TraceEvent) : AnalyzeState :=
  if event.ph = "M" then s
  else if event.ph = "X" then
    match event.dur with
    | some d => processComplete s event d
    | none => s
  else if event.ph = "B" then processBegin s event
  else if event.ph = "E" then processEnd s event
  else s

/-- Finalization of a tally: `averageTime = totalTime / count`. -/
def finalizeTally (t : Operation) : Operation :=
  { t with averageTime := (t.totalTime : ℚ) / (t.count : ℚ) }

/-- The effective end timestamp used for the total build time:
`e.ph === "E" ? e.ts : e.ts + (e.dur || 0)`. -/
def effectiveEnd (e : TraceEvent) : Int :=
  if e.ph = "E" then e.ts else e.ts + (e.dur.getD 0)

/-- The `timestamps` list of the finalization step: effective end
timestamps of all non-metadata events. -/
def buildTimestamps (events : List TraceEvent) : List Int :=
  (events.filter (fun e => e.ph ≠ "M")).map effectiveEnd

/-- `Math.max(...)` over a nonempty list (0 on the empty list, which the
source never hits because of the length guard). -/
def listMax : List Int → Int
  | [] => 0
  | x :: xs => xs.foldl max x

/-- `Math.min(...)` over a nonempty list (0 on the empty list, which the
source never hits because of the length guard). -/
def listMin : List Int → Int
  | [] => 0
  | x :: xs => xs.foldl min x

/-- The total build time computation of the finalization step. -/
def totalBuildTime (events : List TraceEvent) : Int :=
  let timestamps := buildTimestamps events
  if timestamps.length > 0 then
    listMax timestamps - listMin (events.map (fun e => e.ts))
  else 0

/-- The comparator `(a, b) => b.totalTime - a.totalTime` viewed as the
total preorder it sorts by (descending total time). -/
def slowerEq (a b : FileStats) : Prop := b.totalTime ≤ a.totalTime

instance : DecidableRel slowerEq := fun a b => by
  unfold slowerEq; infer_instance

instance : IsTotal FileStats slowerEq :=
  ⟨fun a b => le_total b.totalTime a.totalTime⟩

instance : IsTrans FileStats slowerEq :=
  ⟨fun _ _ _ h1 h2 => le_trans h2 h1⟩

/-- The whole `analyzeTrace` function: fold the event loop over the
input, then finalize averages, total build time, total files, the
slowest-files ranking and the file-type counts. -/
def analyzeTrace (events : List TraceEvent) : Statistics :=
  let st := events.foldl processEvent initState
  { totalTime := totalBuildTime events
    totalFiles := st.uniqueFiles.length
    operationTimes := st.operationTimes.map (fun p => (p.1, finalizeTally p.2))
    categoryTimes := st.categoryTimes.map (fun p => (p.1, finalizeTally p.2))
    slowestFiles :=
      (List.insertionSort slowerEq (jsValues st.fileTimings)).take 10
    filesByType := st.filesByType
    moduleResolution :=
      if st.moduleResolution.totalCount > 0 then
        { st.moduleResolution with
            averageTime := (st.moduleResolution.totalTime : ℚ) /
              (st.moduleResolution.totalCount : ℚ) }
      else st.moduleResolution }

/-! Specification-side definitions used to state the claims. -/

/-- File paths carried by any event of the input (via the `path` or
`fileName` argument fields, as read by `getFilePath`). -/
def inputPaths (events : List TraceEvent) : List String :=
  events.filterMap getFilePath

/-- Complete-phase events that carry a duration. -/
def isCompleteWithDur (e : TraceEvent) : Bool := e.ph == "X" && e.dur.isSome

/-- File paths carried by Complete-phase events that have a duration. -/
def completePaths (events : List TraceEvent) : List String :=
  (events.filter isCompleteWithDur).filterMap getFilePath

/-- Complete-phase events named as the module-resolution operation and
carrying a duration. -/
def isMRComplete (e : TraceEvent) : Bool :=
  e.ph == "X" && e.dur.isSome && e.name == "resolveModuleNamesWorker"

/-- The module-resolution time contribution of a single event. -/
def mrDur (e : TraceEvent) : Int := if isMRComplete e then e.dur.getD 0 else 0

/-- Sum of the durations of the events with a given name. -/
def sumDurFor (name : String) (events : List TraceEvent) : Int :=
  ((events.filter (fun e => e.name == name)).map (fun e => e.dur.getD 0)).sum

/-- Number of events with a given name. -/
def countFor (name : String) (events : List TraceEvent) : Nat :=
  (events.filter (fun e => e.name == name)).length

/-- The effective end timestamp exactly as the claim words it: the raw
timestamp for Begin and End phases, timestamp plus duration (default 0)
for Complete phases. -/
def claimedEffectiveEnd (e : TraceEvent) : Int :=
  if e.ph = "E" ∨ e.ph = "B" then e.ts else e.ts + e.dur.getD 0

/-- The total build time exactly as the claim words it, built from
`claimedEffectiveEnd`. -/
def claimedTotalTime (events : List TraceEvent) : Int :=
  let ends := (events.filter (fun e => e.ph ≠ "M")).map claimedEffectiveEnd
  if ends.length > 0 then listMax ends - listMin (events.map (fun e => e.ts))
  else 0

/-- The amended total build time, stated independently of the code path:
maximum effective end timestamp of the non-metadata events (raw
timestamp for the End phase only) minus the minimum timestamp of all
events, with 0 when no non-metadata event exists. -/
def amendedTotalTime (events : List TraceEvent) : Int :=
  match ((events.filter (fun e => e.ph ≠ "M")).map effectiveEnd).max?,
      (events.map (fun e => e.ts)).min? with
  | some mx, some mn => mx - mn
  | some _, none => 0
  | none, _ => 0

/-- The order in which file paths first received a file tally during the
pass (the key-creation order of the `fileTimings` record). -/
def encounterOrder (events : List TraceEvent) : List String :=
  ((events.foldl processEvent initState).fileTimings).map (fun p => p.1)

/-- The key order in which `Object.values` enumerates the per-file
tallies: array-index-like paths first in ascending numeric order, then
the remaining paths in first-encounter order. -/
def enumOrderKeys (events : List TraceEvent) : List String :=
  (jsEnumOrder ((events.foldl processEvent initState).fileTimings)).map
    (fun p => p.1)

/-- Event constructor for concrete inputs: the `args` bag holds an
optional `path` field and no `fileName` field. -/
def mkEvent (name cat ph : String) (ts : Int) (dur : Option Int)
    (path : Option String) : TraceEvent :=
  { name := name, cat := cat, ph := ph, ts := ts, dur := dur
    argsPath := path, argsFileName := none }

/-- Two Begin events at timestamps 9 and 10 for one key, then one End:
the timestamp strings sort as "10" before "9". -/
def chronoDemo : List TraceEvent :=
  [mkEvent "op" "c" "B" 9 none none,
   mkEvent "op" "c" "B" 10 none none,
   mkEvent "op" "c" "E" 30 none none]

/-- A single Begin event carrying a file path. -/
def beginPathDemo : List TraceEvent :=
  [mkEvent "op" "c" "B" 0 none (some "a.ts")]

/-- A single Complete event with a duration. -/
def oneCompleteDemo : List TraceEvent :=
  [mkEvent "op" "c" "X" 0 (some 10) none]

/-- Two Complete events with one name. -/
def twoCompleteDemo : List TraceEvent :=
  [mkEvent "op" "c" "X" 0 (some 3) none,
   mkEvent "op" "c" "X" 5 (some 4) none]

/-- A matched Begin/End pair named as the module-resolution operation. -/
def mrPairDemo : List TraceEvent :=
  [mkEvent "resolveModuleNamesWorker" "c" "B" 0 none none,
   mkEvent "resolveModuleNamesWorker" "c" "E" 25 none none]

/-- A single Begin event that carries a duration field. -/
def beginWithDurDemo : List TraceEvent :=
  [mkEvent "op" "c" "B" 0 (some 100) none]

/-- Two Begin events sharing key and timestamp, then two End events. -/
def dupTsDemo : List TraceEvent :=
  [mkEvent "op" "c" "B" 5 none none,
   mkEvent "op" "c" "B" 5 none none,
   mkEvent "op" "c" "E" 20 none none,
   mkEvent "op" "c" "E" 30 none none]

/-- Three Complete events touching the same single file. -/
def threeSameFileDemo : List TraceEvent :=
  [mkEvent "op" "c" "X" 0 (some 1) (some "a.ts"),
   mkEvent "op" "c" "X" 1 (some 2) (some "a.ts"),
   mkEvent "op" "c" "X" 2 (some 3) (some "a.ts")]

/-- A Complete event without a duration, preceded by one with one. -/
def noDurDemo : TraceEvent := mkEvent "op" "c" "X" 7 none (some "a.ts")

/-- Two tied Complete events; the second file path is an
array-index-like string, which property enumeration puts first. -/
def numPathDemo : List TraceEvent :=
  [mkEvent "op" "c" "X" 0 (some 5) (some "a.ts"),
   mkEvent "op" "c" "X" 1 (some 5) (some "123")]

/-- The all-zero tally used as the created-if-absent default. -/
def zeroTally : Operation := { totalTime := 0, count := 0, averageTime := 0 }

/-- Accumulated total time of a tally map at a key (0 when absent). -/
def opTotalTime (m : List (String × Operation)) (k : String) : Int :=
  ((alookup m k).getD zeroTally).totalTime

/-- Count of a tally map at a key (0 when absent). -/
def opCount (m : List (String × Operation)) (k : String) : Nat :=
  ((alookup m k).getD zeroTally).count

/-- Count of a file-type bucket (0 when absent). -/
def typeCount (m : List (String × Nat)) (k : String) : Nat :=
  (alookup m k).getD 0

/-- Well-formedness of one entry of the pending begin registry under an
outer key: the stored event is a Begin event whose matching key is the
outer key and whose timestamp string is the inner key. -/
def RegEntryWF (k : String) (p : String × TraceEvent) : Prop :=
  p.2.ph = "B" ∧ matchKey p.2 = k ∧ toString p.2.ts = p.1

/-- Well-formedness of the pending begin registry: inner timestamp keys
are pairwise distinct and every stored entry is well formed. -/
def RegWF (r : List (String × List (String × TraceEvent))) : Prop :=
  ∀ q ∈ r, (q.2.map Prod.fst).Nodup ∧ ∀ p ∈ q.2, RegEntryWF q.1 p

/-- Positivity of every count in a tally map. -/
def TalliesPos (m : List (String × Operation)) : Prop :=
  ∀ k t, alookup m k = some t → 0 < t.count

/-! Generic lemmas about the association-list model of JavaScript
objects. -/

theorem alookup_aset_self {α : Type} (m : List (String × α)) (k : String) (v : α) :
    alookup (aset m k v) k = some v := by
  induction m with
  | nil => simp [aset, alookup]
  | cons p m ih =>
    by_cases h : p.1 = k <;> simp [aset, alookup, h, ih]

theorem alookup_aset_ne {α : Type} (m : List (String × α)) {k k' : String} (v : α)
    (h : k' ≠ k) : alookup (aset m k v) k' = alookup m k' := by
  have h' : ¬ k = k' := fun hh => h hh.symm
  induction m with
  | nil => simp [aset, alookup, h']
  | cons p m ih =>
    by_cases hp : p.1 = k
    · simp [aset, alookup, hp, h']
    · by_cases hp' : p.1 = k' <;> simp [aset, alookup, hp, hp', ih, h]

theorem mem_aset {α : Type} {m : List (String × α)} {k : String} {v : α} {p : String × α}
    (h : p ∈ aset m k v) : p ∈ m ∨ p = (k, v) := by
  induction m with
  | nil => simp [aset] at h; simp [h]
  | cons q m ih =>
    by_cases hq : q.1 = k
    · simp [aset, hq] at h
      rcases h with h | h
      · right; simp [h]
      · left; simp [h]
    · simp [aset, hq] at h
      rcases h with h | h
      · left; simp [h]
      · rcases ih h with h' | h'
        · left; simp [h']
        · right; exact h'

theorem keys_aset {α : Type} (m : List (String × α)) (k : String) (v : α) :
    (aset m k v).map Prod.fst =
      if k ∈ m.map Prod.fst then m.map Prod.fst else m.map Prod.fst ++ [k] := by
  induction m with
  | nil => simp [aset]
  | cons p m ih =>
    by_cases hp : p.1 = k
    · simp [aset, hp]
    · have : ¬ k = p.1 := fun hh => hp hh.symm
      by_cases hm : k ∈ m.map Prod.fst <;>
        simp [aset, hp, ih, hm, this]

theorem keys_nodup_aset {α : Type} {m : List (String × α)} (k : String) (v : α)
    (h : (m.map Prod.fst).Nodup) : ((aset m k v).map Prod.fst).Nodup := by
  rw [keys_aset]
  by_cases hm : k ∈ m.map Prod.fst
  · simpa [hm] using h
  · simp only [hm, if_false]
    simpa [List.nodup_append, hm] using h

theorem aerase_sublist {α : Type} (m : List (String × α)) (k : String) :
    List.Sublist (aerase m k) m := by
  induction m with
  | nil => simp [aerase]
  | cons p m ih =>
    by_cases hp : p.1 = k
    · simp only [aerase, hp, if_true]
      exact List.sublist_cons_self p m
    · simp only [aerase, hp, if_false]
      exact ih.cons₂ p

theorem alookup_mem {α : Type} {m : List (String × α)} {k : String} {v : α}
    (h : alookup m k = some v) : (k, v) ∈ m := by
  induction m with
  | nil => simp [alookup] at h
  | cons p m ih =>
    rcases p with ⟨a, b⟩
    by_cases hp : a = k
    · simp [alookup, hp] at h
      subst hp
      subst h
      exact List.mem_cons_self _ _
    · simp [alookup, hp] at h
      exact List.mem_cons_of_mem _ (ih h)

theorem alookup_isSome_of_mem_keys {α : Type} {m : List (String × α)} {k : String}
    (h : k ∈ m.map Prod.fst) : ∃ v, alookup m k = some v := by
  induction m with
  | nil => simp at h
  | cons p m ih =>
    by_cases hp : p.1 = k
    · exact ⟨p.2, by simp [alookup, hp]⟩
    · have : k ∈ m.map Prod.fst := by
        rcases List.mem_map.mp h with ⟨q, hq, hqk⟩
        rcases List.mem_cons.mp hq with h' | h'
        · exact absurd (h' ▸ hqk) hp
        · exact List.mem_map.mpr ⟨q, h', hqk⟩
      rcases ih this with ⟨v, hv⟩
      exact ⟨v, by simp [alookup, hp, hv]⟩

theorem alookup_mapVals {α β : Type} (f : α → β) (m : List (String × α)) (k : String) :
    alookup (m.map (fun p => (p.1, f p.2))) k = (alookup m k).map f := by
  induction m with
  | nil => simp [alookup]
  | cons p m ih =>
    by_cases hp : p.1 = k <;> simp [alookup, hp, ih]

/-! Lemmas about the tally-update helpers. -/

theorem alookup_bumpTally_self (m : List (String × Operation)) (k : String) (d : Int) :
    alookup (bumpTally m k d) k = some
      { totalTime := opTotalTime m k + d
        count := opCount m k + 1
        averageTime := ((alookup m k).getD zeroTally).averageTime } :=
  alookup_aset_self ..

theorem alookup_bumpTally_ne (m : List (String × Operation)) {k k' : String} (d : Int)
    (h : k' ≠ k) : alookup (bumpTally m k d) k' = alookup m k' :=
  alookup_aset_ne m _ h

theorem typeCount_bumpType_self (m : List (String × Nat)) (k : String) :
    typeCount (bumpType m k) k = typeCount m k + 1 := by
  unfold typeCount bumpType
  rw [alookup_aset_self]
  rfl

/-! Branch-dispatch lemmas for one iteration of the event loop. -/

theorem processEvent_eq_M (s : AnalyzeState) (e : TraceEvent) (h : e.ph = "M") :
    processEvent s e = s := by
  simp [processEvent, h]

theorem processEvent_eq_X_some (s : AnalyzeState) (e : TraceEvent) (d : Int)
    (h : e.ph = "X") (hd : e.dur = some d) :
    processEvent s e = processComplete s e d := by
  simp [processEvent, h, hd]

theorem processEvent_eq_X_none (s : AnalyzeState) (e : TraceEvent)
    (h : e.ph = "X") (hd : e.dur = none) : processEvent s e = s := by
  simp [processEvent, h, hd]

theorem processEvent_eq_B (s : AnalyzeState) (e : TraceEvent) (h : e.ph = "B") :
    processEvent s e = processBegin s e := by
  simp [processEvent, h]

theorem processEvent_eq_E (s : AnalyzeState) (e : TraceEvent) (h : e.ph = "E") :
    processEvent s e = processEnd s e := by
  simp [processEvent, h]

theorem processEvent_eq_other (s : AnalyzeState) (e : TraceEvent) (h1 : e.ph ≠ "M")
    (h2 : e.ph ≠ "X") (h3 : e.ph ≠ "B") (h4 : e.ph ≠ "E") : processEvent s e = s := by
  simp [processEvent, h1, h2, h3, h4]

/-! Field lemmas for the branch bodies. -/

theorem processComplete_core (s : AnalyzeState) (e : TraceEvent) (d : Int) :
    (processComplete s e d).operationTimes = bumpTally s.operationTimes e.name d ∧
    (processComplete s e d).categoryTimes = bumpTally s.categoryTimes e.cat d ∧
    (processComplete s e d).beginEvents = s.beginEvents ∧
    (processComplete s e d).moduleResolution.averageTime =
      s.moduleResolution.averageTime ∧
    (processComplete s e d).moduleResolution.totalTime =
      s.moduleResolution.totalTime +
        (if e.name = "resolveModuleNamesWorker" then d else 0) ∧
    (processComplete s e d).moduleResolution.totalCount =
      s.moduleResolution.totalCount +
        (if e.name = "resolveModuleNamesWorker" then 1 else 0) := by
  unfold processComplete
  cases hg : getFilePath e <;>
    by_cases h : e.name = "resolveModuleNamesWorker" <;> simp [h]

theorem processComplete_files_some (s : AnalyzeState) (e : TraceEvent) (d : Int)
    {p : String} (h : getFilePath e = some p) :
    (processComplete s e d).uniqueFiles = addUnique s.uniqueFiles p ∧
    (processComplete s e d).fileTimings = bumpFile s.fileTimings p e.name d ∧
    (processComplete s e d).filesByType =
      bumpType s.filesByType (getFileExtension p) := by
  unfold processComplete
  rw [h]
  by_cases hn : e.name = "resolveModuleNamesWorker" <;> simp [hn]

theorem processComplete_files_none (s : AnalyzeState) (e : TraceEvent) (d : Int)
    (h : getFilePath e = none) :
    (processComplete s e d).uniqueFiles = s.uniqueFiles ∧
    (processComplete s e d).fileTimings = s.fileTimings ∧
    (processComplete s e d).filesByType = s.filesByType := by
  unfold processComplete
  rw [h]
  by_cases hn : e.name = "resolveModuleNamesWorker" <;> simp [hn]

theorem processBegin_fields (s : AnalyzeState) (e : TraceEvent) :
    (processBegin s e).operationTimes = s.operationTimes ∧
    (processBegin s e).categoryTimes = s.categoryTimes ∧
    (processBegin s e).moduleResolution = s.moduleResolution ∧
    (processBegin s e).uniqueFiles = s.uniqueFiles ∧
    (processBegin s e).fileTimings = s.fileTimings ∧
    (processBegin s e).filesByType = s.filesByType ∧
    (processBegin s e).beginEvents =
      aset s.beginEvents (matchKey e)
        (aset ((alookup s.beginEvents (matchKey e)).getD []) (toString e.ts) e) := by
  unfold processBegin
  exact ⟨rfl, rfl, rfl, rfl, rfl, rfl, rfl⟩

theorem endMatch_core (s : AnalyzeState) (e : TraceEvent)
    (inner : List (String × TraceEvent)) (timeKey : String) (b : TraceEvent) :
    (endMatch s e inner timeKey b).operationTimes =
      bumpTally s.operationTimes e.name (e.ts - b.ts) ∧
    (endMatch s e inner timeKey b).categoryTimes =
      bumpTally s.categoryTimes e.cat (e.ts - b.ts) ∧
    (endMatch s e inner timeKey b).moduleResolution = s.moduleResolution ∧
    (endMatch s e inner timeKey b).beginEvents =
      aset s.beginEvents (matchKey e) (aerase inner timeKey) := by
  unfold endMatch
  cases hg : getFilePath e <;> simp

theorem endMatch_files_some (s : AnalyzeState) (e : TraceEvent)
    (inner : List (String × TraceEvent)) (timeKey : String) (b : TraceEvent)
    {p : String} (h : getFilePath e = some p) :
    (endMatch s e inner timeKey b).uniqueFiles = addUnique s.uniqueFiles p ∧
    (endMatch s e inner timeKey b).fileTimings =
      bumpFile s.fileTimings p e.name (e.ts - b.ts) ∧
    (endMatch s e inner timeKey b).filesByType =
      bumpType s.filesByType (getFileExtension p) := by
  unfold endMatch
  rw [h]
  exact ⟨rfl, rfl, rfl⟩

theorem endMatch_files_none (s : AnalyzeState) (e : TraceEvent)
    (inner : List (String × TraceEvent)) (timeKey : String) (b : TraceEvent)
    (h : getFilePath e = none) :
    (endMatch s e inner timeKey b).uniqueFiles = s.uniqueFiles ∧
    (endMatch s e inner timeKey b).fileTimings = s.fileTimings ∧
    (endMatch s e inner timeKey b).filesByType = s.filesByType := by
  unfold endMatch
  rw [h]
  exact ⟨rfl, rfl, rfl⟩

theorem processEnd_eq (s : AnalyzeState) (e : TraceEvent) :
    processEnd s e = s ∨
    ∃ inner timeKey rest beginEvent,
      alookup s.beginEvents (matchKey e) = some inner ∧
      sortStrings (inner.map (fun p => p.1)) = timeKey :: rest ∧
      alookup inner timeKey = some beginEvent ∧
      processEnd s e = endMatch s e inner timeKey beginEvent := by
  unfold processEnd
  cases h1 : alookup s.beginEvents (matchKey e) with
  | none => left; simp [h1]
  | some inner =>
    cases h2 : sortStrings (inner.map (fun p => p.1)) with
    | nil => left; simp [h1, h2]
    | cons timeKey rest =>
      cases h3 : alookup inner timeKey with
      | none => left; simp [h1, h2, h3]
      | some beginEvent =>
        right
        exact ⟨inner, timeKey, rest, beginEvent, rfl, h2, h3, by simp [h2, h3]⟩

/-! Module-resolution accounting through the pass. -/

theorem processEvent_mr (s : AnalyzeState) (e : TraceEvent) :
    (processEvent s e).moduleResolution.totalTime =
      s.moduleResolution.totalTime + mrDur e ∧
    (processEvent s e).moduleResolution.totalCount =
      s.moduleResolution.totalCount + (if isMRComplete e then 1 else 0) ∧
    (processEvent s e).moduleResolution.averageTime =
      s.moduleResolution.averageTime := by
  by_cases hM : e.ph = "M"
  · rw [processEvent_eq_M s e hM]
    simp [mrDur, isMRComplete, hM]
  by_cases hX : e.ph = "X"
  · cases hd : e.dur with
    | none =>
      rw [processEvent_eq_X_none s e hX hd]
      simp [mrDur, isMRComplete, hX, hd]
    | some d =>
      rw [processEvent_eq_X_some s e d hX hd]
      obtain ⟨-, -, -, h4, h5, h6⟩ := processComplete_core s e d
      refine ⟨?_, ?_, h4⟩
      · rw [h5]; simp [mrDur, isMRComplete, hX, hd]
      · rw [h6]; simp [isMRComplete, hX, hd]
  by_cases hB : e.ph = "B"
  · rw [processEvent_eq_B s e hB]
    obtain ⟨-, -, h3, -⟩ := processBegin_fields s e
    rw [h3]
    simp [mrDur, isMRComplete, hB]
  by_cases hE : e.ph = "E"
  · rw [processEvent_eq_E s e hE]
    have hmr : (processEnd s e).moduleResolution = s.moduleResolution := by
      rcases processEnd_eq s e with h | ⟨inner, tk, rest, b, -, -, -, h⟩
      · rw [h]
      · rw [h]; exact (endMatch_core s e inner tk b).2.2.1
    rw [hmr]
    simp [mrDur, isMRComplete, hE]
  · rw [processEvent_eq_other s e hM hX hB hE]
    simp [mrDur, isMRComplete, hX]

theorem foldl_mr (events : List TraceEvent) : ∀ s : AnalyzeState,
    ((events.foldl processEvent s).moduleResolution.totalTime =
      s.moduleResolution.totalTime + (events.map mrDur).sum) ∧
    ((events.foldl processEvent s).moduleResolution.totalCount =
      s.moduleResolution.totalCount +
        (events.filter (fun e => isMRComplete e)).length) ∧
    ((events.foldl processEvent s).moduleResolution.averageTime =
      s.moduleResolution.averageTime) := by
  induction events with
  | nil => intro s; simp
  | cons e es ih =>
    intro s
    obtain ⟨h1, h2, h3⟩ := processEvent_mr s e
    obtain ⟨g1, g2, g3⟩ := ih (processEvent s e)
    refine ⟨?_, ?_, ?_⟩
    · rw [List.foldl_cons, g1, h1, List.map_cons, List.sum_cons]
      omega
    · rw [List.foldl_cons, g2, h2, List.filter_cons]
      by_cases hc : isMRComplete e <;> simp [hc] <;> omega
    · rw [List.foldl_cons, g3, h3]

theorem analyzeTrace_mr_raw (events : List TraceEvent) :
    (analyzeTrace events).moduleResolution.totalTime =
      (events.foldl processEvent initState).moduleResolution.totalTime ∧
    (analyzeTrace events).moduleResolution.totalCount =
      (events.foldl processEvent initState).moduleResolution.totalCount := by
  unfold analyzeTrace
  dsimp only
  split <;> simp

/-- C4: the module-resolution totals come exactly from Complete-phase
events (with a duration) named `resolveModuleNamesWorker`; a matched
Begin/End pair with that name contributes nothing to `moduleResolution`
even though it does update the operation tallies, as the concrete pair
`mrPairDemo` shows. -/
theorem mr_only_complete_updates (events : List TraceEvent) :
    (analyzeTrace events).moduleResolution.totalTime = (events.map mrDur).sum ∧
    (analyzeTrace events).moduleResolution.totalCount =
      (events.filter (fun e => isMRComplete e)).length ∧
    (analyzeTrace mrPairDemo).moduleResolution =
      { totalTime := 0, totalCount := 0, averageTime := 0 } ∧
    (alookup (analyzeTrace mrPairDemo).operationTimes
        "resolveModuleNamesWorker").map (fun t => (t.totalTime, t.count)) =
      some (25, 1) := by
  obtain ⟨h1, h2⟩ := analyzeTrace_mr_raw events
  obtain ⟨g1, g2, -⟩ := foldl_mr events initState
  refine ⟨?_, ?_, by decide, by decide⟩
  · rw [h1, g1]; simp [initState]
  · rw [h2, g2]; simp [initState]

/-! Positivity of tally counts. -/

theorem talliesPos_bumpTally {m : List (String × Operation)} (hm : TalliesPos m)
    (k : String) (d : Int) : TalliesPos (bumpTally m k d) := by
  intro k' t ht
  by_cases hk : k' = k
  · subst hk
    rw [alookup_bumpTally_self] at ht
    simp only [Option.some.injEq] at ht
    subst ht
    simp
  · rw [alookup_bumpTally_ne m d hk] at ht
    exact hm k' t ht

theorem processEvent_tallies (s : AnalyzeState) (e : TraceEvent) :
    ((processEvent s e).operationTimes = s.operationTimes ∨
      ∃ k d, (processEvent s e).operationTimes = bumpTally s.operationTimes k d) ∧
    ((processEvent s e).categoryTimes = s.categoryTimes ∨
      ∃ k d, (processEvent s e).categoryTimes = bumpTally s.categoryTimes k d) := by
  by_cases hM : e.ph = "M"
  · rw [processEvent_eq_M s e hM]; exact ⟨Or.inl rfl, Or.inl rfl⟩
  by_cases hX : e.ph = "X"
  · cases hd : e.dur with
    | none => rw [processEvent_eq_X_none s e hX hd]; exact ⟨Or.inl rfl, Or.inl rfl⟩
    | some d =>
      rw [processEvent_eq_X_some s e d hX hd]
      obtain ⟨h1, h2, -⟩ := processComplete_core s e d
      exact ⟨Or.inr ⟨_, _, h1⟩, Or.inr ⟨_, _, h2⟩⟩
  by_cases hB : e.ph = "B"
  · rw [processEvent_eq_B s e hB]
    obtain ⟨h1, h2, -⟩ := processBegin_fields s e
    exact ⟨Or.inl h1, Or.inl h2⟩
  by_cases hE : e.ph = "E"
  · rw [processEvent_eq_E s e hE]
    rcases processEnd_eq s e with h | ⟨inner, tk, rest, b, -, -, -, h⟩
    · rw [h]; exact ⟨Or.inl rfl, Or.inl rfl⟩
    · rw [h]
      obtain ⟨h1, h2, -, -⟩ := endMatch_core s e inner tk b
      exact ⟨Or.inr ⟨_, _, h1⟩, Or.inr ⟨_, _, h2⟩⟩
  · rw [processEvent_eq_other s e hM hX hB hE]; exact ⟨Or.inl rfl, Or.inl rfl⟩

theorem foldl_talliesPos (events : List TraceEvent) : ∀ s : AnalyzeState,
    TalliesPos s.operationTimes → TalliesPos s.categoryTimes →
    TalliesPos ((events.foldl processEvent s).operationTimes) ∧
    TalliesPos ((events.foldl processEvent s).categoryTimes) := by
  induction events with
  | nil => intro s h1 h2; exact ⟨h1, h2⟩
  | cons e es ih =>
    intro s h1 h2
    rw [List.foldl_cons]
    obtain ⟨ho, hc⟩ := processEvent_tallies s e
    apply ih
    · rcases ho with h | ⟨k, d, h⟩
      · rw [h]; exact h1
      · rw [h]; exact talliesPos_bumpTally h1 k d
    · rcases hc with h | ⟨k, d, h⟩
      · rw [h]; exact h2
      · rw [h]; exact talliesPos_bumpTally h2 k d

theorem initState_talliesPos :
    TalliesPos initState.operationTimes ∧ TalliesPos initState.categoryTimes := by
  constructor <;> (intro k t h; simp [initState, alookup] at h)

theorem analyzeTrace_opTimes (events : List TraceEvent) :
    (analyzeTrace events).operationTimes =
      ((events.foldl processEvent initState).operationTimes).map
        (fun p => (p.1, finalizeTally p.2)) := rfl

theorem analyzeTrace_catTimes (events : List TraceEvent) :
    (analyzeTrace events).categoryTimes =
      ((events.foldl processEvent initState).categoryTimes).map
        (fun p => (p.1, finalizeTally p.2)) := rfl

theorem analyzeTrace_mr_avg (events : List TraceEvent) :
    (0 < (events.foldl processEvent initState).moduleResolution.totalCount →
      (analyzeTrace events).moduleResolution.averageTime =
        (((events.foldl processEvent initState).moduleResolution.totalTime : ℚ) /
          ((events.foldl processEvent initState).moduleResolution.totalCount : ℚ))) ∧
    ((events.foldl processEvent initState).moduleResolution.totalCount = 0 →
      (analyzeTrace events).moduleResolution.averageTime =
        (events.foldl processEvent initState).moduleResolution.averageTime) := by
  unfold analyzeTrace
  dsimp only
  constructor
  · intro h
    rw [if_pos h]
  · intro h
    rw [if_neg (by omega)]

/-- C3 fails as stated: the module-resolution tally is materialized in
the output even on an empty input, where its count is 0. -/
theorem tally_zero_count_cex :
    (analyzeTrace []).moduleResolution.totalCount = 0 ∧
    (analyzeTrace []).moduleResolution.averageTime = 0 := by decide

/-- C3 (amended): every operation tally and category tally present in
the finalized statistics has positive count and `averageTime` equal to
`totalTime / count`; the module-resolution tally is always
materialized, its average is `totalTime / totalCount` whenever its
count is positive, and it keeps the neutral average 0 when its count is
zero (no division is performed). -/
theorem tally_average_invariant (events : List TraceEvent) :
    (∀ k t, alookup (analyzeTrace events).operationTimes k = some t →
      0 < t.count ∧ t.averageTime = (t.totalTime : ℚ) / (t.count : ℚ)) ∧
    (∀ k t, alookup (analyzeTrace events).categoryTimes k = some t →
      0 < t.count ∧ t.averageTime = (t.totalTime : ℚ) / (t.count : ℚ)) ∧
    (0 < (analyzeTrace events).moduleResolution.totalCount →
      (analyzeTrace events).moduleResolution.averageTime =
        ((analyzeTrace events).moduleResolution.totalTime : ℚ) /
          ((analyzeTrace events).moduleResolution.totalCount : ℚ)) ∧
    ((analyzeTrace events).moduleResolution.totalCount = 0 →
      (analyzeTrace events).moduleResolution.averageTime = 0) := by
  obtain ⟨hop, hcat⟩ :=
    foldl_talliesPos events initState initState_talliesPos.1 initState_talliesPos.2
  obtain ⟨hmr1, hmr2⟩ := analyzeTrace_mr_avg events
  obtain ⟨hraw1, hraw2⟩ := analyzeTrace_mr_raw events
  obtain ⟨-, -, havg⟩ := foldl_mr events initState
  refine ⟨?_, ?_, ?_, ?_⟩
  · intro k t ht
    rw [analyzeTrace_opTimes, alookup_mapVals] at ht
    cases hq : alookup ((events.foldl processEvent initState).operationTimes) k with
    | none => rw [hq] at ht; simp at ht
    | some t0 =>
      rw [hq] at ht
      simp only [Option.map_some', Option.some.injEq] at ht
      subst ht
      exact ⟨hop k t0 hq, rfl⟩
  · intro k t ht
    rw [analyzeTrace_catTimes, alookup_mapVals] at ht
    cases hq : alookup ((events.foldl processEvent initState).categoryTimes) k with
    | none => rw [hq] at ht; simp at ht
    | some t0 =>
      rw [hq] at ht
      simp only [Option.map_some', Option.some.injEq] at ht
      subst ht
      exact ⟨hcat k t0 hq, rfl⟩
  · intro h
    rw [hraw2] at h
    rw [hraw1, hraw2]
    exact hmr1 h
  · intro h
    rw [hraw2] at h
    rw [hmr2 h, havg]
    simp [initState]

/-- Witness for the amended C3 theorem at a concrete input. -/
theorem tally_average_invariant_witness :
    0 < ((alookup (analyzeTrace oneCompleteDemo).operationTimes "op").getD
      zeroTally).count ∧
    ((alookup (analyzeTrace oneCompleteDemo).operationTimes "op").getD
        zeroTally).averageTime =
      ((((alookup (analyzeTrace oneCompleteDemo).operationTimes "op").getD
        zeroTally).totalTime : ℚ) /
        ((((alookup (analyzeTrace oneCompleteDemo).operationTimes "op").getD
          zeroTally).count : Nat) : ℚ)) :=
  (tally_average_invariant oneCompleteDemo).1 "op" _ rfl

/-! Operation tallies over Complete-only inputs. -/

theorem opTotalTime_bumpTally_self (m : List (String × Operation)) (k : String)
    (d : Int) : opTotalTime (bumpTally m k d) k = opTotalTime m k + d := by
  unfold opTotalTime
  rw [alookup_bumpTally_self]
  rfl

theorem opCount_bumpTally_self (m : List (String × Operation)) (k : String)
    (d : Int) : opCount (bumpTally m k d) k = opCount m k + 1 := by
  unfold opCount
  rw [alookup_bumpTally_self]
  rfl

theorem opTotalTime_bumpTally_ne (m : List (String × Operation)) {k k' : String}
    (d : Int) (h : k' ≠ k) : opTotalTime (bumpTally m k d) k' = opTotalTime m k' := by
  unfold opTotalTime
  rw [alookup_bumpTally_ne m d h]

theorem opCount_bumpTally_ne (m : List (String × Operation)) {k k' : String}
    (d : Int) (h : k' ≠ k) : opCount (bumpTally m k d) k' = opCount m k' := by
  unfold opCount
  rw [alookup_bumpTally_ne m d h]

theorem alookup_bumpTally_self_isSome (m : List (String × Operation)) (k : String)
    (d : Int) : alookup (bumpTally m k d) k ≠ none := by
  rw [alookup_bumpTally_self]
  simp

theorem sumDurFor_cons (name : String) (e : TraceEvent) (es : List TraceEvent) :
    sumDurFor name (e :: es) =
      (if e.name = name then e.dur.getD 0 else 0) + sumDurFor name es := by
  unfold sumDurFor
  rw [List.filter_cons]
  by_cases h : e.name = name <;> simp [h]

theorem countFor_cons (name : String) (e : TraceEvent) (es : List TraceEvent) :
    countFor name (e :: es) =
      (if e.name = name then 1 else 0) + countFor name es := by
  unfold countFor
  rw [List.filter_cons]
  by_cases h : e.name = name <;> simp [h] <;> omega

theorem foldl_allX_opTimes (events : List TraceEvent) : ∀ s : AnalyzeState,
    (∀ e ∈ events, e.ph = "X" ∧ e.dur ≠ none) → ∀ name,
    (opTotalTime ((events.foldl processEvent s).operationTimes) name =
      opTotalTime s.operationTimes name + sumDurFor name events) ∧
    (opCount ((events.foldl processEvent s).operationTimes) name =
      opCount s.operationTimes name + countFor name events) ∧
    (alookup ((events.foldl processEvent s).operationTimes) name = none ↔
      alookup s.operationTimes name = none ∧ countFor name events = 0) := by
  induction events with
  | nil =>
    intro s h name
    simp [sumDurFor, countFor]
  | cons e es ih =>
    intro s h name
    obtain ⟨hX, hdur⟩ := h e (List.mem_cons_self e es)
    cases hd : e.dur with
    | none => exact absurd hd hdur
    | some d =>
      rw [List.foldl_cons, processEvent_eq_X_some s e d hX hd]
      have hop : (processComplete s e d).operationTimes =
          bumpTally s.operationTimes e.name d := (processComplete_core s e d).1
      obtain ⟨i1, i2, i3⟩ :=
        ih (processComplete s e d) (fun x hx => h x (List.mem_cons_of_mem e hx)) name
      rw [hop] at i1 i2 i3
      rw [sumDurFor_cons, countFor_cons]
      by_cases hn : e.name = name
      · subst hn
        rw [opTotalTime_bumpTally_self] at i1
        rw [opCount_bumpTally_self] at i2
        refine ⟨by rw [i1, hd]; simp; omega, by rw [i2]; simp; omega, ?_⟩
        rw [i3]
        simp [alookup_bumpTally_self_isSome]
      · have hn' : name ≠ e.name := fun hh => hn hh.symm
        rw [opTotalTime_bumpTally_ne s.operationTimes d hn'] at i1
        rw [opCount_bumpTally_ne s.operationTimes d hn'] at i2
        rw [alookup_bumpTally_ne s.operationTimes d hn'] at i3
        exact ⟨by rw [i1]; simp [hn], by rw [i2]; simp [hn], by rw [i3]; simp [hn]⟩

/-- C5: over an input consisting only of Complete-phase events each
carrying a duration, the finalized operation tally of every occurring
name accumulates exactly the durations of the events with that name,
counts exactly those events, and averages their quotient. -/
theorem complete_only_operation_totals (events : List TraceEvent) (name : String)
    (hall : ∀ e ∈ events, e.ph = "X" ∧ e.dur ≠ none)
    (hocc : name ∈ events.map TraceEvent.name) :
    ∃ t, alookup (analyzeTrace events).operationTimes name = some t ∧
      t.totalTime = sumDurFor name events ∧
      t.count = countFor name events ∧
      t.averageTime = (t.totalTime : ℚ) / (t.count : ℚ) := by
  obtain ⟨h1, h2, h3⟩ := foldl_allX_opTimes events initState hall name
  have hcount : countFor name events ≠ 0 := by
    unfold countFor
    rcases List.mem_map.mp hocc with ⟨e, he, hne⟩
    have hmem : e ∈ events.filter (fun e => e.name == name) :=
      List.mem_filter.mpr ⟨he, by simp [hne]⟩
    intro hlen
    rw [List.length_eq_zero] at hlen
    simp [hlen] at hmem
  cases hq : alookup ((events.foldl processEvent initState).operationTimes) name with
  | none => exact absurd (h3.mp hq).2 hcount
  | some t0 =>
    unfold opTotalTime at h1
    unfold opCount at h2
    rw [hq] at h1 h2
    simp only [Option.getD_some] at h1 h2
    refine ⟨finalizeTally t0, ?_, ?_, ?_, rfl⟩
    · rw [analyzeTrace_opTimes, alookup_mapVals, hq]
      rfl
    · show t0.totalTime = sumDurFor name events
      rw [h1]
      simp [initState, alookup, zeroTally]
    · show t0.count = countFor name events
      rw [h2]
      simp [initState, alookup, zeroTally]

/-- Witness for the C5 theorem at a concrete two-event input. -/
theorem complete_only_operation_totals_witness :
    (∀ e ∈ twoCompleteDemo, e.ph = "X" ∧ e.dur ≠ none) ∧
    "op" ∈ twoCompleteDemo.map TraceEvent.name ∧
    ∃ t, alookup (analyzeTrace twoCompleteDemo).operationTimes "op" = some t ∧
      t.totalTime = sumDurFor "op" twoCompleteDemo ∧
      t.count = countFor "op" twoCompleteDemo ∧
      t.averageTime = (t.totalTime : ℚ) / (t.count : ℚ) :=
  ⟨by decide, by decide,
    complete_only_operation_totals twoCompleteDemo "op" (by decide) (by decide)⟩

/-! Unique-file accounting through the pass. -/

theorem mem_addUnique {l : List String} {p q : String} :
    q ∈ addUnique l p ↔ q ∈ l ∨ q = p := by
  unfold addUnique
  by_cases hp : p ∈ l
  · simp only [hp, if_true]
    constructor
    · exact Or.inl
    · rintro (h | rfl)
      exacts [h, hp]
  · simp [hp]

theorem subset_addUnique (l : List String) (p : String) : l ⊆ addUnique l p :=
  fun _ hx => mem_addUnique.mpr (Or.inl hx)

theorem addUnique_nodup {l : List String} (h : l.Nodup) (p : String) :
    (addUnique l p).Nodup := by
  unfold addUnique
  by_cases hp : p ∈ l
  · simpa [hp] using h
  · simp [hp, List.nodup_append, h]

theorem processEvent_uniqueFiles (s : AnalyzeState) (e : TraceEvent) :
    (processEvent s e).uniqueFiles = s.uniqueFiles ∨
    ∃ p, getFilePath e = some p ∧
      (processEvent s e).uniqueFiles = addUnique s.uniqueFiles p := by
  by_cases hM : e.ph = "M"
  · rw [processEvent_eq_M s e hM]; exact Or.inl rfl
  by_cases hX : e.ph = "X"
  · cases hd : e.dur with
    | none => rw [processEvent_eq_X_none s e hX hd]; exact Or.inl rfl
    | some d =>
      rw [processEvent_eq_X_some s e d hX hd]
      cases hg : getFilePath e with
      | none => exact Or.inl (processComplete_files_none s e d hg).1
      | some p => exact Or.inr ⟨p, rfl, (processComplete_files_some s e d hg).1⟩
  by_cases hB : e.ph = "B"
  · rw [processEvent_eq_B s e hB]
    exact Or.inl (processBegin_fields s e).2.2.2.1
  by_cases hE : e.ph = "E"
  · rw [processEvent_eq_E s e hE]
    rcases processEnd_eq s e with h | ⟨inner, tk, rest, b, -, -, -, h⟩
    · rw [h]; exact Or.inl rfl
    · rw [h]
      cases hg : getFilePath e with
      | none => exact Or.inl (endMatch_files_none s e inner tk b hg).1
      | some p => exact Or.inr ⟨p, rfl, (endMatch_files_some s e inner tk b hg).1⟩
  · rw [processEvent_eq_other s e hM hX hB hE]; exact Or.inl rfl

theorem uniqueFiles_mono_step (s : AnalyzeState) (e : TraceEvent) :
    s.uniqueFiles ⊆ (processEvent s e).uniqueFiles := by
  rcases processEvent_uniqueFiles s e with h | ⟨p, -, h⟩ <;> rw [h]
  · exact fun x hx => hx
  · exact subset_addUnique _ _

theorem uniqueFiles_mono_foldl (es : List TraceEvent) : ∀ s : AnalyzeState,
    s.uniqueFiles ⊆ ((es.foldl processEvent s).uniqueFiles) := by
  induction es with
  | nil => intro s x hx; exact hx
  | cons e es ih =>
    intro s x hx
    exact ih (processEvent s e) (uniqueFiles_mono_step s e hx)

theorem mem_inputPaths_tail {e : TraceEvent} {es : List TraceEvent} {p : String}
    (h : p ∈ inputPaths es) : p ∈ inputPaths (e :: es) := by
  unfold inputPaths at *
  rw [List.filterMap_cons]
  cases getFilePath e <;> simp [h]

theorem mem_inputPaths_head {e : TraceEvent} (es : List TraceEvent) {p : String}
    (h : getFilePath e = some p) : p ∈ inputPaths (e :: es) := by
  unfold inputPaths
  rw [List.filterMap_cons, h]
  simp

theorem foldl_uniqueFiles_sound (es : List TraceEvent) : ∀ s : AnalyzeState,
    s.uniqueFiles.Nodup →
    ((es.foldl processEvent s).uniqueFiles.Nodup ∧
      ∀ p, p ∈ (es.foldl processEvent s).uniqueFiles →
        p ∈ s.uniqueFiles ∨ p ∈ inputPaths es) := by
  induction es with
  | nil =>
    intro s hn
    exact ⟨hn, fun p hp => Or.inl hp⟩
  | cons e es ih =>
    intro s hn
    rw [List.foldl_cons]
    rcases processEvent_uniqueFiles s e with h | ⟨q, hq, h⟩
    · obtain ⟨g1, g2⟩ := ih (processEvent s e) (by rw [h]; exact hn)
      refine ⟨g1, fun p hp => ?_⟩
      rcases g2 p hp with hin | hin
      · rw [h] at hin; exact Or.inl hin
      · exact Or.inr (mem_inputPaths_tail hin)
    · obtain ⟨g1, g2⟩ := ih (processEvent s e) (by rw [h]; exact addUnique_nodup hn q)
      refine ⟨g1, fun p hp => ?_⟩
      rcases g2 p hp with hin | hin
      · rw [h] at hin
        rcases mem_addUnique.mp hin with hin' | rfl
        · exact Or.inl hin'
        · exact Or.inr (mem_inputPaths_head es hq)
      · exact Or.inr (mem_inputPaths_tail hin)

theorem mem_completePaths_tail {e : TraceEvent} {es : List TraceEvent} {p : String}
    (h : p ∈ completePaths es) : p ∈ completePaths (e :: es) := by
  unfold completePaths at *
  rw [List.filter_cons]
  by_cases hc : isCompleteWithDur e
  · rw [if_pos (by simpa using hc), List.filterMap_cons]
    cases getFilePath e <;> simp [h]
  · rw [if_neg (by simpa using hc)]
    exact h

theorem mem_completePaths_head {e : TraceEvent} (es : List TraceEvent) {p : String}
    {d : Int} (hX : e.ph = "X") (hd : e.dur = some d)
    (hg : getFilePath e = some p) : p ∈ completePaths (e :: es) := by
  unfold completePaths
  rw [List.filter_cons, if_pos (by simp [isCompleteWithDur, hX, hd]),
    List.filterMap_cons, hg]
  simp

theorem foldl_completePaths_added (es : List TraceEvent) : ∀ s : AnalyzeState,
    ∀ p, p ∈ completePaths es → p ∈ (es.foldl processEvent s).uniqueFiles := by
  induction es with
  | nil => intro s p h; simp [completePaths] at h
  | cons e es ih =>
    intro s p h
    unfold completePaths at h
    rw [List.filter_cons] at h
    rw [List.foldl_cons]
    by_cases hc : isCompleteWithDur e
    · rw [if_pos (by simpa using hc)] at h
      rw [List.filterMap_cons] at h
      obtain ⟨hX, hdsome⟩ : e.ph = "X" ∧ e.dur.isSome := by
        simpa [isCompleteWithDur] using hc
      obtain ⟨d, hd⟩ := Option.isSome_iff_exists.mp hdsome
      cases hg : getFilePath e with
      | none =>
        rw [hg] at h
        exact ih (processEvent s e) p h
      | some q =>
        rw [hg] at h
        rcases List.mem_cons.mp h with rfl | h'
        · have huf : (processEvent s e).uniqueFiles = addUnique s.uniqueFiles p := by
            rw [processEvent_eq_X_some s e d hX hd]
            exact (processComplete_files_some s e d hg).1
          apply uniqueFiles_mono_foldl es (processEvent s e)
          rw [huf]
          exact mem_addUnique.mpr (Or.inr rfl)
        · exact ih (processEvent s e) p h'
    · rw [if_neg (by simpa using hc)] at h
      exact ih (processEvent s e) p h

theorem foldl_allX_uniqueFiles_rev (es : List TraceEvent) : ∀ s : AnalyzeState,
    (∀ e ∈ es, e.ph = "X") →
    ∀ p, p ∈ (es.foldl processEvent s).uniqueFiles →
      p ∈ s.uniqueFiles ∨ p ∈ completePaths es := by
  induction es with
  | nil => intro s hall p hp; exact Or.inl hp
  | cons e es ih =>
    intro s hall p hp
    rw [List.foldl_cons] at hp
    have hX : e.ph = "X" := hall e (List.mem_cons_self e es)
    have hall' : ∀ x ∈ es, x.ph = "X" := fun x hx => hall x (List.mem_cons_of_mem e hx)
    cases hd : e.dur with
    | none =>
      rw [processEvent_eq_X_none s e hX hd] at hp
      rcases ih s hall' p hp with h | h
      · exact Or.inl h
      · exact Or.inr (mem_completePaths_tail h)
    | some d =>
      rw [processEvent_eq_X_some s e d hX hd] at hp
      cases hg : getFilePath e with
      | none =>
        have huf := (processComplete_files_none s e d hg).1
        rcases ih (processComplete s e d) hall' p hp with h | h
        · rw [huf] at h; exact Or.inl h
        · exact Or.inr (mem_completePaths_tail h)
      | some q =>
        have huf := (processComplete_files_some s e d hg).1
        rcases ih (processComplete s e d) hall' p hp with h | h
        · rw [huf] at h
          rcases mem_addUnique.mp h with h' | rfl
          · exact Or.inl h'
          · exact Or.inr (mem_completePaths_head es hX hd hg)
        · exact Or.inr (mem_completePaths_tail h)

/-- C2 fails as stated: a Begin event carries the file path `a.ts`
(one distinct path in the whole input), yet `totalFiles` is 0. -/
theorem totalFiles_cex :
    (inputPaths beginPathDemo).toFinset.card = 1 ∧
    (analyzeTrace beginPathDemo).totalFiles = 0 := by decide

/-- C2 (amended): `totalFiles` counts the distinct file paths observed
in qualifying events only; it never exceeds the number of distinct
paths carried anywhere in the input, and on an input of Complete-phase
events only it equals the number of distinct paths carried by those
Complete events that have a duration. -/
theorem totalFiles_amended (events : List TraceEvent) :
    (analyzeTrace events).totalFiles ≤ (inputPaths events).toFinset.card ∧
    ((∀ e ∈ events, e.ph = "X") →
      (analyzeTrace events).totalFiles = (completePaths events).toFinset.card) := by
  have hTF : (analyzeTrace events).totalFiles =
      ((events.foldl processEvent initState).uniqueFiles).length := rfl
  obtain ⟨hnd, hsound⟩ :=
    foldl_uniqueFiles_sound events initState (by simp [initState])
  constructor
  · rw [hTF, ← List.toFinset_card_of_nodup hnd]
    apply Finset.card_le_card
    intro p hp
    rw [List.mem_toFinset] at hp
    rcases hsound p hp with h | h
    · simp [initState] at h
    · exact List.mem_toFinset.mpr h
  · intro hall
    have hset : ((events.foldl processEvent initState).uniqueFiles).toFinset =
        (completePaths events).toFinset := by
      apply Finset.ext
      intro p
      simp only [List.mem_toFinset]
      constructor
      · intro hp
        rcases foldl_allX_uniqueFiles_rev events initState hall p hp with h | h
        · simp [initState] at h
        · exact h
      · intro hp
        exact foldl_completePaths_added events initState p hp
    rw [hTF, ← List.toFinset_card_of_nodup hnd, hset]

/-- Witness for the amended C2 theorem at a concrete all-Complete input. -/
theorem totalFiles_amended_witness :
    (analyzeTrace threeSameFileDemo).totalFiles =
      (completePaths threeSameFileDemo).toFinset.card :=
  (totalFiles_amended threeSameFileDemo).2 (by decide)

/-! Total build time. -/

/-- C6 fails as stated: a Begin event carrying a duration field gets
effective end timestamp `ts + dur` from the code (the raw timestamp is
kept for the End phase only), while the claim assigns Begin events
their raw timestamp; on this one-event input the code yields 100, the
claimed formula 0. -/
theorem totalTime_cex :
    (analyzeTrace beginWithDurDemo).totalTime = 100 ∧
    claimedTotalTime beginWithDurDemo = 0 := by decide

/-- C6 (amended): the finalized `totalTime` is the maximum effective
end timestamp over all non-metadata events minus the minimum raw
timestamp over all events, where the effective end timestamp is the
raw timestamp for the End phase only and `ts + (dur` default `0)` for
every other non-metadata phase, Begin included; it is 0 when no
non-metadata event exists. -/
theorem totalTime_amended (events : List TraceEvent) :
    (analyzeTrace events).totalTime = amendedTotalTime events := by
  have h : (analyzeTrace events).totalTime = totalBuildTime events := rfl
  rw [h]
  unfold totalBuildTime amendedTotalTime buildTimestamps
  cases hts : (events.filter (fun e => e.ph ≠ "M")).map effectiveEnd with
  | nil => simp
  | cons x xs =>
    have hev : events ≠ [] := by
      intro hnil
      subst hnil
      simp at hts
    cases hevs : events.map (fun e => e.ts) with
    | nil => exact absurd (List.map_eq_nil_iff.mp hevs) hev
    | cons y ys =>
      simp only [List.max?_cons', List.min?_cons', listMax, listMin]
      simp

/-! Complete events without a duration. -/

/-- C9: a Complete-phase event without a duration leaves the event-loop
state untouched (no tally, no file, no registry change), yet it is a
non-metadata event whose effective end timestamp, its timestamp plus
the default duration 0, still enters the total-build-time computation,
and only `totalTime` can differ when it is appended to an input. -/
theorem complete_without_duration (e : TraceEvent) (hph : e.ph = "X")
    (hdur : e.dur = none) :
    (∀ s, processEvent s e = s) ∧
    effectiveEnd e = e.ts ∧
    (∀ es, buildTimestamps (es ++ [e]) = buildTimestamps es ++ [e.ts]) ∧
    (∀ es,
      (analyzeTrace (es ++ [e])).operationTimes = (analyzeTrace es).operationTimes ∧
      (analyzeTrace (es ++ [e])).categoryTimes = (analyzeTrace es).categoryTimes ∧
      (analyzeTrace (es ++ [e])).totalFiles = (analyzeTrace es).totalFiles ∧
      (analyzeTrace (es ++ [e])).slowestFiles = (analyzeTrace es).slowestFiles ∧
      (analyzeTrace (es ++ [e])).filesByType = (analyzeTrace es).filesByType ∧
      (analyzeTrace (es ++ [e])).moduleResolution =
        (analyzeTrace es).moduleResolution) := by
  have hstep : ∀ s, processEvent s e = s := fun s =>
    processEvent_eq_X_none s e hph hdur
  have heff : effectiveEnd e = e.ts := by
    unfold effectiveEnd
    rw [if_neg (by simp [hph]), hdur]
    simp
  refine ⟨hstep, heff, ?_, ?_⟩
  · intro es
    unfold buildTimestamps
    rw [List.filter_append, List.map_append]
    simp [List.filter_cons, hph, heff]
  · intro es
    have hfold : (es ++ [e]).foldl processEvent initState =
        es.foldl processEvent initState := by
      rw [List.foldl_append]
      simp [hstep]
    have hsame : analyzeTrace (es ++ [e]) =
        { analyzeTrace es with totalTime := totalBuildTime (es ++ [e]) } := by
      unfold analyzeTrace
      dsimp only
      rw [hfold]
    rw [hsame]
    exact ⟨rfl, rfl, rfl, rfl, rfl, rfl⟩

/-- Witness for the C9 theorem at a concrete no-duration event. -/
theorem complete_without_duration_witness :
    processEvent initState noDurDemo = initState ∧
    effectiveEnd noDurDemo = noDurDemo.ts :=
  ⟨(complete_without_duration noDurDemo rfl rfl).1 initState,
   (complete_without_duration noDurDemo rfl rfl).2.1⟩

/-! File-type buckets count qualifying events. -/

/-- C10: each Complete event with a duration and a file path, and each
matched End event with a file path, increments the extension bucket of
that path by exactly one, so the buckets count qualifying events rather
than distinct files; on three Complete events over the single file
`a.ts` the `ts` bucket reaches 3 while `totalFiles` is 1. -/
theorem filesByType_counts_events :
    (∀ (s : AnalyzeState) (e : TraceEvent) (d : Int) (p : String),
      e.ph = "X" → e.dur = some d → getFilePath e = some p →
      typeCount ((processEvent s e).filesByType) (getFileExtension p) =
        typeCount s.filesByType (getFileExtension p) + 1) ∧
    (∀ (s : AnalyzeState) (e : TraceEvent) (p : String),
      e.ph = "E" → getFilePath e = some p →
      (∃ inner, alookup s.beginEvents (matchKey e) = some inner ∧ inner ≠ []) →
      typeCount ((processEvent s e).filesByType) (getFileExtension p) =
        typeCount s.filesByType (getFileExtension p) + 1) ∧
    alookup (analyzeTrace threeSameFileDemo).filesByType "ts" = some 3 ∧
    (analyzeTrace threeSameFileDemo).totalFiles = 1 := by
  refine ⟨?_, ?_, by decide, by decide⟩
  · intro s e d p hX hd hg
    rw [processEvent_eq_X_some s e d hX hd,
      (processComplete_files_some s e d hg).2.2]
    exact typeCount_bumpType_self _ _
  · rintro s e p hE hg ⟨inner, hinner, hne⟩
    rw [processEvent_eq_E s e hE]
    have hkeys : inner.map (fun p => p.1) ≠ [] := by simp [hne]
    have hsort : sortStrings (inner.map (fun p => p.1)) ≠ [] := by
      unfold sortStrings
      intro h0
      have hperm :=
        List.perm_insertionSort (fun a b => strLe a b = true)
          (inner.map (fun p => p.1))
      rw [h0] at hperm
      exact hkeys hperm.symm.eq_nil
    obtain ⟨tk, rest, hsort_eq⟩ := List.exists_cons_of_ne_nil hsort
    have htk_mem : tk ∈ inner.map (fun p => p.1) := by
      have hperm : List.Perm (sortStrings (inner.map (fun p => p.1)))
          (inner.map (fun p => p.1)) := by
        unfold sortStrings
        exact List.perm_insertionSort _ _
      apply hperm.mem_iff.mp
      rw [hsort_eq]
      exact List.mem_cons_self _ _
    obtain ⟨b, hb⟩ := alookup_isSome_of_mem_keys htk_mem
    unfold processEnd
    simp only [hinner, hsort_eq, hb]
    rw [(endMatch_files_some s e inner tk b hg).2.2]
    exact typeCount_bumpType_self _ _

/-- Witness for the C10 theorem at a concrete Complete event. -/
theorem filesByType_counts_events_witness :
    typeCount
        ((processEvent initState
          (mkEvent "op" "c" "X" 0 (some 1) (some "a.ts"))).filesByType)
        (getFileExtension "a.ts") =
      typeCount initState.filesByType (getFileExtension "a.ts") + 1 :=
  filesByType_counts_events.1 initState _ 1 "a.ts" rfl rfl (by decide)

/-! Begin/end matching order and the pending registry. -/

/-- C1 evaluated at the failing input: the code sorts the timestamp
keys as strings, so with pending Begins at timestamps 9 and 10 the End
at 30 pairs with the Begin at 10 ("10" sorts before "9"), producing
duration 20 instead of 21, and the chronologically earliest Begin (at
9) is the one left pending. -/
theorem chrono_fifo_eval :
    (alookup (analyzeTrace chronoDemo).operationTimes "op").map
      (fun t => (t.totalTime, t.count)) = some (20, 1) ∧
    alookup ((alookup ((chronoDemo.foldl processEvent initState).beginEvents)
        "op:unknown").getD []) "9" =
      some (mkEvent "op" "c" "B" 9 none none) :=
  ⟨by decide, by decide⟩

/-- C8 fails as stated: two Begin events sharing key and timestamp
collapse to a single registry entry (the later overwrites the earlier),
so of the two subsequent End events only the first finds a pending
Begin — the operation tally ends with count 1, not 2. -/
theorem dup_begin_cex :
    (alookup (analyzeTrace dupTsDemo).operationTimes "op").map
      (fun t => (t.totalTime, t.count)) = some (15, 1) := by decide

theorem regWF_processEvent (s : AnalyzeState) (e : TraceEvent)
    (h : RegWF s.beginEvents) : RegWF (processEvent s e).beginEvents := by
  by_cases hM : e.ph = "M"
  · rw [processEvent_eq_M s e hM]; exact h
  by_cases hX : e.ph = "X"
  · cases hd : e.dur with
    | none => rw [processEvent_eq_X_none s e hX hd]; exact h
    | some d =>
      rw [processEvent_eq_X_some s e d hX hd, (processComplete_core s e d).2.2.1]
      exact h
  by_cases hB : e.ph = "B"
  · rw [processEvent_eq_B s e hB, (processBegin_fields s e).2.2.2.2.2.2]
    intro q hq
    rcases mem_aset hq with hq' | rfl
    · exact h q hq'
    · constructor
      · apply keys_nodup_aset
        cases hi : alookup s.beginEvents (matchKey e) with
        | none => simp
        | some inner0 =>
          have := (h _ (alookup_mem hi)).1
          simpa using this
      · intro p hp
        rcases mem_aset hp with hp' | rfl
        · cases hi : alookup s.beginEvents (matchKey e) with
          | none => rw [hi] at hp'; simp at hp'
          | some inner0 =>
            rw [hi] at hp'
            exact (h _ (alookup_mem hi)).2 p hp'
        · exact ⟨hB, rfl, rfl⟩
  by_cases hE : e.ph = "E"
  · rw [processEvent_eq_E s e hE]
    rcases processEnd_eq s e with heq | ⟨inner, tk, rest, b, hinner, hsorted, hbv, heq⟩
    · rw [heq]; exact h
    · rw [heq, (endMatch_core s e inner tk b).2.2.2]
      intro q hq
      rcases mem_aset hq with hq' | rfl
      · exact h q hq'
      · refine ⟨?_, ?_⟩
        · exact ((aerase_sublist inner tk).map Prod.fst).nodup
            (h _ (alookup_mem hinner)).1
        · intro p hp
          exact (h _ (alookup_mem hinner)).2 p ((aerase_sublist inner tk).subset hp)
  · rw [processEvent_eq_other s e hM hX hB hE]; exact h

theorem regWF_foldl (es : List TraceEvent) : ∀ s : AnalyzeState,
    RegWF s.beginEvents → RegWF ((es.foldl processEvent s).beginEvents) := by
  induction es with
  | nil => intro s h; exact h
  | cons e es ih =>
    intro s h
    exact ih (processEvent s e) (regWF_processEvent s e h)

/-- C8 (amended): for each matching key the registry retains at most
one Begin event per timestamp string (the inner keys are pairwise
distinct and a later Begin with the same key and timestamp string
replaces the earlier one), and every stored entry is a Begin event
whose matching key and timestamp string are its keys — so when two
Begin events share both key and timestamp, only one of them is
retained and only one subsequent End event can be matched. -/
theorem registry_keyed_by_timestamp (events : List TraceEvent) :
    (∀ k inner,
      alookup ((events.foldl processEvent initState).beginEvents) k = some inner →
      (inner.map Prod.fst).Nodup ∧
      ∀ tk e, alookup inner tk = some e →
        e.ph = "B" ∧ matchKey e = k ∧ toString e.ts = tk) ∧
    (∀ (s : AnalyzeState) (e : TraceEvent), e.ph = "B" →
      ∃ inner,
        alookup (processEvent s e).beginEvents (matchKey e) = some inner ∧
        alookup inner (toString e.ts) = some e) := by
  constructor
  · have hwf : RegWF ((events.foldl processEvent initState).beginEvents) :=
      regWF_foldl events initState (by intro q hq; simp [initState] at hq)
    intro k inner hk
    obtain ⟨h1, h2⟩ := hwf _ (alookup_mem hk)
    exact ⟨h1, fun tk e he => h2 _ (alookup_mem he)⟩
  · intro s e hB
    rw [processEvent_eq_B s e hB, (processBegin_fields s e).2.2.2.2.2.2]
    exact ⟨_, alookup_aset_self .., alookup_aset_self ..⟩

/-- Witness for the amended C8 theorem: the registry entry left by the
duplicate-timestamp input is well formed, and a processed Begin event
is retrievable under its key and timestamp string. -/
theorem registry_keyed_by_timestamp_witness :
    (((alookup ((dupTsDemo.foldl processEvent initState).beginEvents)
        "op:unknown").getD []).map Prod.fst).Nodup ∧
    ∃ inner,
      alookup (processEvent initState
          (mkEvent "op" "c" "B" 5 none none)).beginEvents
        (matchKey (mkEvent "op" "c" "B" 5 none none)) = some inner ∧
      alookup inner (toString (mkEvent "op" "c" "B" 5 none none).ts) =
        some (mkEvent "op" "c" "B" 5 none none) :=
  ⟨((registry_keyed_by_timestamp dupTsDemo).1 "op:unknown" _ rfl).1,
   (registry_keyed_by_timestamp []).2 initState _ rfl⟩

/-! Stability of the insertion-sort model of the stable JavaScript sort. -/

theorem orderedInsert_pair {α : Type} {r : α → α → Prop} [DecidableRel r]
    {a b : α} (hab : r a b) :
    ∀ {m : List α}, b ∈ m → List.Sublist [a, b] (List.orderedInsert r a m) := by
  intro m
  induction m with
  | nil => intro h; simp at h
  | cons c m ih =>
    intro hb
    rw [List.orderedInsert]
    by_cases hac : r a c
    · rw [if_pos hac]
      exact (List.singleton_sublist.mpr hb).cons₂ a
    · rw [if_neg hac]
      have hbc : b ≠ c := fun h => hac (h ▸ hab)
      have hb' : b ∈ m := by
        rcases List.mem_cons.mp hb with h | h
        · exact absurd h hbc
        · exact h
      exact (ih hb').cons c

theorem pair_sublist_insertionSort {α : Type} {r : α → α → Prop} [DecidableRel r]
    {a b : α} (hab : r a b) :
    ∀ {l : List α}, List.Sublist [a, b] l →
      List.Sublist [a, b] (List.insertionSort r l) := by
  intro l
  induction l with
  | nil => intro h; simp at h
  | cons x l ih =>
    intro h
    rw [List.insertionSort]
    cases h with
    | cons _ h' => exact (ih h').trans (List.sublist_orderedInsert x _)
    | cons₂ _ h' =>
      have hb : b ∈ List.insertionSort r l :=
        (List.perm_insertionSort r l).mem_iff.mpr (List.singleton_sublist.mp h')
      exact orderedInsert_pair hab hb

theorem pair_sublist_or {α : Type} {a b : α} :
    ∀ {l : List α}, a ∈ l → b ∈ l → a ≠ b →
      List.Sublist [a, b] l ∨ List.Sublist [b, a] l := by
  intro l
  induction l with
  | nil => intro h; simp at h
  | cons x l ih =>
    intro ha hb hne
    by_cases hxa : x = a
    · subst hxa
      have hb' : b ∈ l := by
        rcases List.mem_cons.mp hb with h | h
        · exact absurd h.symm hne
        · exact h
      exact Or.inl ((List.singleton_sublist.mpr hb').cons₂ x)
    · by_cases hxb : x = b
      · subst hxb
        have ha' : a ∈ l := by
          rcases List.mem_cons.mp ha with h | h
          · exact absurd h.symm hxa
          · exact h
        exact Or.inr ((List.singleton_sublist.mpr ha').cons₂ x)
      · have ha' : a ∈ l := by
          rcases List.mem_cons.mp ha with h | h
          · exact absurd h.symm hxa
          · exact h
        have hb' : b ∈ l := by
          rcases List.mem_cons.mp hb with h | h
          · exact absurd h.symm hxb
          · exact h
        rcases ih ha' hb' hne with h | h
        · exact Or.inl (h.cons x)
        · exact Or.inr (h.cons x)

theorem not_pair_sublist_both {α : Type} {a b : α} :
    ∀ {l : List α}, l.Nodup → List.Sublist [a, b] l →
      List.Sublist [b, a] l → False := by
  intro l
  induction l with
  | nil => intro _ h; simp at h
  | cons x l ih =>
    intro hn h1 h2
    have hnx : x ∉ l := (List.nodup_cons.mp hn).1
    have hnl : l.Nodup := (List.nodup_cons.mp hn).2
    cases h1 with
    | cons _ h1' =>
      cases h2 with
      | cons _ h2' => exact ih hnl h1' h2'
      | cons₂ _ h2' =>
        exact hnx (h1'.subset (by simp))
    | cons₂ _ h1' =>
      cases h2 with
      | cons _ h2' =>
        exact hnx (h2'.subset (by simp))
      | cons₂ _ h2' =>
        exact hnx (List.singleton_sublist.mp h1')

/-! Well-formedness of the per-file timing map. -/

theorem bumpFile_wf {m : List (String × FileStats)}
    (hk : (m.map Prod.fst).Nodup) (hv : ∀ q ∈ m, q.2.path = q.1)
    (p op : String) (d : Int) :
    ((bumpFile m p op d).map Prod.fst).Nodup ∧
    ∀ q ∈ bumpFile m p op d, q.2.path = q.1 := by
  constructor
  · exact keys_nodup_aset _ _ hk
  · intro q hq
    rcases mem_aset hq with hq' | rfl
    · exact hv q hq'
    · cases hl : alookup m p with
      | none => simp [bumpFile, hl]
      | some fs =>
        have := hv _ (alookup_mem hl)
        simpa [bumpFile, hl] using this

theorem processEvent_fileTimings (s : AnalyzeState) (e : TraceEvent) :
    (processEvent s e).fileTimings = s.fileTimings ∨
    ∃ p d, getFilePath e = some p ∧
      (processEvent s e).fileTimings = bumpFile s.fileTimings p e.name d := by
  by_cases hM : e.ph = "M"
  · rw [processEvent_eq_M s e hM]; exact Or.inl rfl
  by_cases hX : e.ph = "X"
  · cases hd : e.dur with
    | none => rw [processEvent_eq_X_none s e hX hd]; exact Or.inl rfl
    | some d =>
      rw [processEvent_eq_X_some s e d hX hd]
      cases hg : getFilePath e with
      | none => exact Or.inl (processComplete_files_none s e d hg).2.1
      | some p =>
        exact Or.inr ⟨p, d, rfl, (processComplete_files_some s e d hg).2.1⟩
  by_cases hB : e.ph = "B"
  · rw [processEvent_eq_B s e hB]
    exact Or.inl (processBegin_fields s e).2.2.2.2.1
  by_cases hE : e.ph = "E"
  · rw [processEvent_eq_E s e hE]
    rcases processEnd_eq s e with h | ⟨inner, tk, rest, b, -, -, -, h⟩
    · rw [h]; exact Or.inl rfl
    · rw [h]
      cases hg : getFilePath e with
      | none => exact Or.inl (endMatch_files_none s e inner tk b hg).2.1
      | some p =>
        exact Or.inr ⟨p, e.ts - b.ts, rfl, (endMatch_files_some s e inner tk b hg).2.1⟩
  · rw [processEvent_eq_other s e hM hX hB hE]; exact Or.inl rfl

theorem foldl_fileTimings_wf (es : List TraceEvent) : ∀ s : AnalyzeState,
    (s.fileTimings.map Prod.fst).Nodup → (∀ q ∈ s.fileTimings, q.2.path = q.1) →
    (((es.foldl processEvent s).fileTimings.map Prod.fst).Nodup ∧
      ∀ q ∈ (es.foldl processEvent s).fileTimings, q.2.path = q.1) := by
  induction es with
  | nil => intro s h1 h2; exact ⟨h1, h2⟩
  | cons e es ih =>
    intro s h1 h2
    rw [List.foldl_cons]
    rcases processEvent_fileTimings s e with h | ⟨p, d, -, h⟩
    · exact ih (processEvent s e) (by rw [h]; exact h1) (by rw [h]; exact h2)
    · obtain ⟨g1, g2⟩ := bumpFile_wf h1 h2 p e.name d
      exact ih (processEvent s e) (by rw [h]; exact g1) (by rw [h]; exact g2)

theorem foldl_fileTimings_nopath (es : List TraceEvent) : ∀ s : AnalyzeState,
    (∀ e ∈ es, getFilePath e = none) →
    (es.foldl processEvent s).fileTimings = s.fileTimings := by
  induction es with
  | nil => intro s _; rfl
  | cons e es ih =>
    intro s hall
    rw [List.foldl_cons]
    have hstep : (processEvent s e).fileTimings = s.fileTimings := by
      rcases processEvent_fileTimings s e with h | ⟨p, d, hp, -⟩
      · exact h
      · exact absurd hp (by rw [hall e (List.mem_cons_self e es)]; simp)
    rw [ih (processEvent s e) (fun x hx => hall x (List.mem_cons_of_mem e hx)), hstep]

/-- Helper: the enumeration order is a permutation of the record. -/
theorem jsEnumOrder_perm {α : Type} (m : List (String × α)) :
    List.Perm (jsEnumOrder m) m := by
  unfold jsEnumOrder
  refine List.Perm.trans
    (List.Perm.append_right _ (List.perm_insertionSort _ _)) ?_
  exact List.filter_append_perm _ m

/-- Helper: with no array-index-like key, enumeration order is exactly
the property-creation order. -/
theorem jsEnumOrder_eq_self {α : Type} {m : List (String × α)}
    (h : ∀ q ∈ m, isArrayIndexKey q.1 = false) : jsEnumOrder m = m := by
  unfold jsEnumOrder
  have h1 : m.filter (fun p => isArrayIndexKey p.1) = [] :=
    List.filter_eq_nil_iff.mpr (by intro a ha; simp [h a ha])
  have h2 : m.filter (fun p => !isArrayIndexKey p.1) = m :=
    List.filter_eq_self.mpr (by intro a ha; simp [h a ha])
  rw [h1, h2]
  simp

/-- C7 fails as stated: with a tie between the file `a.ts` (encountered
first) and the array-index-like path `123` (encountered second),
own-property enumeration puts `123` first and the stable sort keeps
that order, so the tied entries leave first-encounter order. -/
theorem slowest_tie_cex :
    (analyzeTrace numPathDemo).slowestFiles.map FileStats.path =
      ["123", "a.ts"] ∧
    (analyzeTrace numPathDemo).slowestFiles.map FileStats.totalTime = [5, 5] ∧
    encounterOrder numPathDemo = ["a.ts", "123"] :=
  ⟨by decide, by decide, by decide⟩

/-- C7 (amended): `slowestFiles` has at most 10 entries, is sorted by
`totalTime` descending by a stable sort with no secondary key, and is
empty when no event carries a file path; ties are kept in the
own-property enumeration order of the per-file tally record —
array-index-like paths first in ascending numeric order, then the
remaining paths in first-encounter order — which coincides with
first-encounter order whenever no file path is an array-index-like
string. -/
theorem slowestFiles_spec (events : List TraceEvent) :
    (analyzeTrace events).slowestFiles.length ≤ 10 ∧
    (analyzeTrace events).slowestFiles.Pairwise
      (fun a b => b.totalTime ≤ a.totalTime) ∧
    (∀ a b, List.Sublist [a, b] (analyzeTrace events).slowestFiles →
      a.totalTime = b.totalTime →
      List.Sublist [a.path, b.path] (enumOrderKeys events)) ∧
    ((∀ p ∈ encounterOrder events, isArrayIndexKey p = false) →
      enumOrderKeys events = encounterOrder events) ∧
    ((∀ e ∈ events, getFilePath e = none) →
      (analyzeTrace events).slowestFiles = []) := by
  have hdef : (analyzeTrace events).slowestFiles =
      (List.insertionSort slowerEq
        (jsValues ((events.foldl processEvent initState).fileTimings))).take
        10 := rfl
  obtain ⟨hknd, hpath⟩ :=
    foldl_fileTimings_wf events initState (by simp [initState])
      (by intro q hq; simp [initState] at hq)
  have hperm := jsEnumOrder_perm ((events.foldl processEvent initState).fileTimings)
  have hmap : (jsValues ((events.foldl processEvent initState).fileTimings)).map
        FileStats.path =
      (jsEnumOrder ((events.foldl processEvent initState).fileTimings)).map
        Prod.fst := by
    unfold jsValues
    rw [List.map_map]
    exact List.map_congr_left (fun q hq => hpath q (hperm.subset hq))
  have hknd' : ((jsEnumOrder
      ((events.foldl processEvent initState).fileTimings)).map Prod.fst).Nodup :=
    ((hperm.map Prod.fst).nodup_iff).mpr hknd
  have hvnd : (jsValues
      ((events.foldl processEvent initState).fileTimings)).Nodup :=
    List.Nodup.of_map FileStats.path (by rw [hmap]; exact hknd')
  have hsnd : (List.insertionSort slowerEq
      (jsValues ((events.foldl processEvent initState).fileTimings))).Nodup :=
    ((List.perm_insertionSort slowerEq _).nodup_iff).mpr hvnd
  refine ⟨?_, ?_, ?_, ?_, ?_⟩
  · rw [hdef, List.length_take]
    exact inf_le_left
  · rw [hdef]
    exact List.Pairwise.sublist (List.take_sublist 10 _)
      (List.sorted_insertionSort slowerEq _)
  · intro a b hab htie
    rw [hdef] at hab
    have hab' : List.Sublist [a, b] (List.insertionSort slowerEq
        (jsValues ((events.foldl processEvent initState).fileTimings))) :=
      hab.trans (List.take_sublist 10 _)
    have hane : a ≠ b := by
      intro h
      subst h
      exact (List.nodup_iff_sublist.mp hsnd a) hab'
    have hmem_a : a ∈ jsValues
        ((events.foldl processEvent initState).fileTimings) :=
      (List.perm_insertionSort slowerEq _).subset (hab'.subset (by simp))
    have hmem_b : b ∈ jsValues
        ((events.foldl processEvent initState).fileTimings) :=
      (List.perm_insertionSort slowerEq _).subset (hab'.subset (by simp))
    have hpair : List.Sublist [a, b]
        (jsValues ((events.foldl processEvent initState).fileTimings)) := by
      rcases pair_sublist_or hmem_a hmem_b hane with h | h
      · exact h
      · exfalso
        have hba : List.Sublist [b, a] (List.insertionSort slowerEq
            (jsValues ((events.foldl processEvent initState).fileTimings))) :=
          pair_sublist_insertionSort
            (show slowerEq b a from le_of_eq htie) h
        exact not_pair_sublist_both hsnd hab' hba
    have hmapped := hpair.map FileStats.path
    rw [hmap] at hmapped
    exact hmapped
  · intro hnone
    unfold enumOrderKeys encounterOrder
    rw [jsEnumOrder_eq_self]
    intro q hq
    have : q.1 ∈ encounterOrder events :=
      List.mem_map_of_mem (fun p => p.1) hq
    exact hnone q.1 this
  · intro hnone
    rw [hdef, foldl_fileTimings_nopath events initState hnone]
    simp [initState, jsValues, jsEnumOrder]

/-- Witness for the amended C7 theorem: the tie-break conjunct applied
at the enumeration-reordered input, the coincidence conjunct at an
input with no array-index-like path, and the emptiness conjunct at an
input with no paths. -/
theorem slowestFiles_spec_witness :
    List.Sublist ["123", "a.ts"] (enumOrderKeys numPathDemo) ∧
    enumOrderKeys threeSameFileDemo = encounterOrder threeSameFileDemo ∧
    (analyzeTrace chronoDemo).slowestFiles = [] :=
  ⟨(slowestFiles_spec numPathDemo).2.2.1
      { path := "123", totalTime := 5, operations := [("op", 5)] }
      { path := "a.ts", totalTime := 5, operations := [("op", 5)] }
      (by decide) (by decide),
   (slowestFiles_spec threeSameFileDemo).2.2.2.1 (by decide),
   (slowestFiles_spec chronoDemo).2.2.2.2 (by decide)⟩

end Tracelytics
